import Mathlib

/-!
Verification development for the retrieval core of the Multi_Model_Brain
repository (`src/database/vector_db.py` and the delete handler in
`src/app.py`).  Text is modelled as `List Char`; Python's `str.split(sep)`
for the two-character separators `"\n\n"` and `". "` is modelled by
`splitPair`, `str.strip()` by `pyStrip`, and the chunking routine
`VectorDatabase._chunk_text` by `chunkText`.  All definitions are
translated line by line from the source.
-/

/-- Characters stripped by Python's `str.strip()` (ASCII whitespace as used
by `str.isspace` on the character set relevant here). -/
def isPySpace (c : Char) : Bool :=
  c == ' ' || c == '\t' || c == '\n' || c == '\r' || c == '\x0b' || c == '\x0c'

/-- Python `s.strip()`: drop leading and trailing whitespace. -/
def pyStrip (s : List Char) : List Char :=
  ((s.dropWhile isPySpace).reverse.dropWhile isPySpace).reverse

/-- Whether the two-character sequence `x, y` occurs contiguously in `s`. -/
def containsPair (x y : Char) : List Char → Bool
  | a :: b :: rest => (a == x && b == y) || containsPair x y (b :: rest)
  | _ => false

/-- Prepend a character to the first piece of a split result. -/
def consHead (c : Char) : List (List Char) → List (List Char)
  | [] => [[c]]
  | p :: ps => (c :: p) :: ps

/-- Python `s.split(xy)` for a two-character separator `xy`: split on every
non-overlapping occurrence scanning left to right, keeping empty pieces. -/
def splitPair (x y : Char) : List Char → List (List Char)
  | [] => [[]]
  | [c] => [[c]]
  | a :: b :: rest =>
    if a = x ∧ b = y then [] :: splitPair x y rest
    else consHead a (splitPair x y (b :: rest))

/-- Concatenation of all pieces (used to compare chunker output with the
original text). -/
def joinAll (l : List (List Char)) : List Char :=
  l.foldr (fun a b => a ++ b) []

/-- All non-whitespace characters of `s`, in order (the residue preserved
by "whitespace normalization"). -/
def squeezeWS (s : List Char) : List Char :=
  s.filter (fun c => !isPySpace c)

/-- One iteration of the inner sentence loop of `_chunk_text`
(vector_db.py lines 211-216): flush `temp_chunk` when adding the sentence
would overflow, then always append `sentence + ". "`. -/
def sentStep (maxSize : Nat) (st : List (List Char) × List Char) (s : List Char) :
    List (List Char) × List Char :=
  if maxSize < st.2.length + s.length + 2 ∧ st.2 ≠ [] then
    (st.1 ++ [pyStrip st.2], s ++ ['.', ' '])
  else (st.1, st.2 ++ (s ++ ['.', ' ']))

/-- One iteration of the outer paragraph loop of `_chunk_text`
(vector_db.py lines 199-223). -/
def flushCur (st : List (List Char) × List Char) : List (List Char) :=
  if st.2 = [] then st.1 else st.1 ++ [pyStrip st.2]

def sentLoop (maxSize : Nat) (chunks : List (List Char)) (p : List Char) :
    List (List Char) × List Char :=
  (splitPair '.' ' ' p).foldl (sentStep maxSize) (chunks, [])

def parStep (maxSize : Nat) (st : List (List Char) × List Char) (p : List Char) :
    List (List Char) × List Char :=
  if maxSize < st.2.length + p.length + 2 then
    if maxSize < p.length then
      ((sentLoop maxSize (flushCur st) p).1,
        if (sentLoop maxSize (flushCur st) p).2 = [] then []
        else pyStrip (sentLoop maxSize (flushCur st) p).2)
    else (flushCur st, p)
  else (st.1, if st.2 = [] then p else st.2 ++ (['\n', '\n'] ++ p))

/-- `VectorDatabase._chunk_text(text, max_chunk_size)` (vector_db.py lines
180-228): return `[text]` when it fits, otherwise split on blank lines and
greedily pack paragraphs, splitting oversized paragraphs on `". "`. -/
def chunkText (text : List Char) (maxSize : Nat) : List (List Char) :=
  if text.length ≤ maxSize then [text]
  else
    let st := (splitPair '\n' '\n' text).foldl (parStep maxSize) ([], [])
    if st.2 = [] then st.1 else st.1 ++ [pyStrip st.2]

/-- Metadata record attached to a stored chunk.  The Python code stores a
dict; the keys the verified claims touch are `filename` (read by the
app.py delete handler), `type`, and the `chunk_id` / `total_chunks` stamps
added by `add_document`. -/
structure Meta where
  filename : Option (List Char)
  ftype : Option (List Char)
  chunk_id : Option Nat
  total_chunks : Option Nat
deriving DecidableEq

instance : Inhabited Meta := ⟨⟨none, none, none, none⟩⟩

/-- `add_document` (vector_db.py lines 70-78): `chunk_metadata =
metadata.copy() if metadata else \x7b\x7d`, then stamp `chunk_id` and
`total_chunks` when the text was split into more than one chunk. -/
def stampMeta (base : Meta) (i n : Nat) : Meta :=
  if 1 < n then { base with chunk_id := some i, total_chunks := some n } else base

/-- The per-chunk metadata list produced by one `add_document` call. -/
def chunkMetas (base : Meta) (n : Nat) : List Meta :=
  (List.range n).map (fun i => stampMeta base i n)

/-- In-memory state of `VectorDatabase`: `documents`, `metadata`,
`is_fitted`, and the FAISS index modelled by its row count (`none` when
`self.index is None`). -/
structure VDB where
  documents : List (List Char)
  metadata : List Meta
  fitted : Bool
  ntotal : Option Nat
deriving DecidableEq

/-- The state built by `__init__` with no database persistence. -/
def initVDB : VDB := ⟨[], [], false, none⟩

/-- `get_stats` field `total_vectors`: `self.index.ntotal if self.index
else 0` (vector_db.py line 239). -/
def vectorRows (s : VDB) : Nat := s.ntotal.getD 0

/-- `_rebuild_index` (vector_db.py lines 93-119).  The TF-IDF fit is
performed by the external sklearn vectorizer; whether it succeeds on a
given corpus (it raises on a degenerate, e.g. all-stop-word, vocabulary)
is abstracted as the parameter `fitOk`.  On success the index is replaced
by one with a row per document; on failure the exception propagates and
the state is left as it was. -/
def rebuildIx (fitOk : List (List Char) → Bool) (s : VDB) : Except Unit VDB :=
  if s.documents = [] then .ok s
  else if fitOk s.documents then
    .ok { s with ntotal := some s.documents.length, fitted := true }
  else .error ()

/-- Outcome of calling `_rebuild_index` on state `s1`: the new state and a
flag recording whether it raised; on a raise the state keeps the rows
already appended (no rollback). -/
def rebuildRes (fitOk : List (List Char) → Bool) (s1 : VDB) : VDB × Bool :=
  match rebuildIx fitOk s1 with
  | .ok s2 => (s2, true)
  | .error _ => (s1, false)

/-- `add_document` (vector_db.py lines 58-91), returning the resulting
state and a success flag.  On a fit failure the chunks appended before
`_rebuild_index` raised are retained (no rollback). -/
def addDocR (fitOk : List (List Char) → Bool) (s : VDB) (text : List Char)
    (meta : Option Meta) : VDB × Bool :=
  let chunks := chunkText text 500
  let base := meta.getD default
  let s1 : VDB := { s with documents := s.documents ++ chunks,
                           metadata := s.metadata ++ chunkMetas base chunks.length }
  rebuildRes fitOk s1

/-- `clear_all` (vector_db.py lines 166-178): reset documents, metadata,
index and fit state. -/
def clearAllOp (_s : VDB) : VDB := initVDB

/-- The app.py delete handler (lines 173-195): keep the rows whose
metadata `filename` differs from the deleted one, `clear_all`, then
re-`add_document` every retained row; a raise inside the re-add loop
aborts the rest of the loop. -/
def deleteByR (fitOk : List (List Char) → Bool) (s : VDB) (f : List Char) :
    VDB × Bool :=
  let retained := (s.documents.zip s.metadata).filter
    (fun dm => ¬ dm.2.filename = some f)
  retained.foldl
    (fun acc dm => if acc.2 then addDocR fitOk acc.1 dm.1 (some dm.2) else acc)
    (initVDB, true)

/-- The public mutating operations of the engine. -/
inductive DbOp where
  | add (text : List Char) (meta : Option Meta)
  | deleteBy (f : List Char)
  | clearAll

/-- Execute one operation, returning the new state and whether it
completed without raising. -/
def stepOp (fitOk : List (List Char) → Bool) (s : VDB) : DbOp → VDB × Bool
  | .add text meta => addDocR fitOk s text meta
  | .deleteBy f => deleteByR fitOk s f
  | .clearAll => (clearAllOp s, true)

/-- Run a sequence of operations from the initial state; the flag records
whether every operation completed without raising. -/
def runOps (fitOk : List (List Char) → Bool) (ops : List DbOp) : VDB × Bool :=
  ops.foldl (fun acc op =>
    let r := stepOp fitOk acc.1 op
    (r.1, acc.2 && r.2)) (initVDB, true)

/-- Persistence model for claim C9: the adapter is a list of saved
records, and `saveOk` says which `save_document` calls succeed (a failing
one raises inside the `try` of vector_db.py lines 82-85 and is caught). -/
def saveFold (saveOk : List Char → Meta → Bool) (db : List (List Char × Meta))
    (pairs : List (List Char × Meta)) : List (List Char × Meta) :=
  pairs.foldl (fun d cm => if saveOk cm.1 cm.2 then d ++ [cm] else d) db

/-- `add_document` with the best-effort persistence mirror included:
each chunk is appended to the store, saved to the adapter inside a
`try/except`, and the index is rebuilt at the end. -/
def addDocP (fitOk : List (List Char) → Bool) (saveOk : List Char → Meta → Bool)
    (s : VDB) (db : List (List Char × Meta)) (text : List Char)
    (meta : Option Meta) : (VDB × List (List Char × Meta)) × Bool :=
  let chunks := chunkText text 500
  let base := meta.getD default
  let metas := chunkMetas base chunks.length
  let db2 := saveFold saveOk db (chunks.zip metas)
  let s1 : VDB := { s with documents := s.documents ++ chunks,
                           metadata := s.metadata ++ metas }
  let r := rebuildRes fitOk s1
  ((r.1, db2), r.2)

/-- Inner product of two embedding vectors (numpy/FAISS inner-product
scoring, over exact rationals). -/
def dot (v w : List ℚ) : ℚ := (List.zipWith (fun a b => a * b) v w).sum

/-- Sum of squares of a vector; zero exactly when the L2 norm is zero, so
the code's guard `query_norm > 0` is `0 < sumSq q`. -/
def sumSq (v : List ℚ) : ℚ := (v.map (fun a => a * a)).sum

/-- Ranking order used to model FAISS `IndexFlatIP.search`: higher inner
product first, ties by lower row index (the insertion order of the
corpus). -/
def cmpRel : Nat × ℚ → Nat × ℚ → Prop :=
  fun a b => b.2 < a.2 ∨ (a.2 = b.2 ∧ a.1 ≤ b.1)

instance : DecidableRel cmpRel := fun a b => by
  unfold cmpRel; infer_instance

instance : IsTotal (Nat × ℚ) cmpRel where
  total a b := by
    rcases lt_trichotomy a.2 b.2 with h | h | h
    · exact Or.inr (Or.inl h)
    · rcases Nat.le_total a.1 b.1 with h1 | h1
      · exact Or.inl (Or.inr ⟨h, h1⟩)
      · exact Or.inr (Or.inr ⟨h.symm, h1⟩)
    · exact Or.inl (Or.inl h)

instance : IsTrans (Nat × ℚ) cmpRel where
  trans a b c hab hbc := by
    rcases hab with h1 | ⟨h1, h1i⟩ <;> rcases hbc with h2 | ⟨h2, h2i⟩
    · exact Or.inl (h2.trans h1)
    · exact Or.inl (h2 ▸ h1)
    · exact Or.inl (h1 ▸ h2)
    · exact Or.inr ⟨h1.trans h2, le_trans h1i h2i⟩

/-- Score every corpus row against the (already normalized) query
vector. -/
def scoredRows (embs : List (List ℚ)) (qv : List ℚ) : List (Nat × ℚ) :=
  (List.range embs.length).map (fun i => (i, dot qv (embs.getD i [])))

/-- Model of `self.index.search(query_vector, k)` for the exact flat
inner-product index: all rows ranked by descending score (ties by
insertion order), truncated to `k`.  For `k ≤ ntotal` FAISS returns
exactly `k` valid (non `-1`) row ids, so the `idx != -1` filter of
vector_db.py line 153 never drops an entry. -/
def faissTopK (embs : List (List ℚ)) (qv : List ℚ) (k : Nat) : List (Nat × ℚ) :=
  (List.insertionSort cmpRel (scoredRows embs qv)).take k

/-- One entry of the list returned by `search`. -/
structure SearchResult where
  content : List Char
  metadata : Meta
  score : ℚ
  rank : Nat
deriving DecidableEq

/-- The result-building loop of `search` (vector_db.py lines 151-159):
`rank` is the enumeration position plus one. -/
def mkResults (docs : List (List Char)) (metas : List Meta) :
    Nat → List (Nat × ℚ) → List SearchResult
  | _, [] => []
  | r, (idx, sc) :: rest =>
    ⟨docs.getD idx [], metas.getD idx default, sc, r + 1⟩ ::
      mkResults docs metas (r + 1) rest

/-- `search` (vector_db.py lines 121-161).  The sklearn `transform` of the
query is the input vector `q`; division by the (irrational) L2 norm is
abstracted as `nf`, guarded exactly as in the code by `query_norm > 0`
(equivalently `0 < sumSq q`), so a zero vector is passed through
unnormalized.  `top_k` is clamped to the corpus size. -/
def dbSearch (embs : List (List ℚ)) (docs : List (List Char)) (metas : List Meta)
    (fitted : Bool) (nf : List ℚ → List ℚ) (q : List ℚ) (k : Nat) :
    List SearchResult :=
  if docs.length = 0 ∨ fitted = false then []
  else
    let qv := if 0 < sumSq q then nf q else q
    mkResults docs metas 0 (faissTopK embs qv (min k docs.length))

/-- State of the query pipeline: store rows plus the embeddings produced
by the last fit. -/
structure SState where
  docs : List (List Char)
  metas : List Meta
  embs : List (List ℚ)
  fitted : Bool

/-- A full index rebuild from the current corpus snapshot: the external
vectorizer `fe` is refit on the documents and the index is replaced. -/
def rebuildS (fe : List (List Char) → List (List ℚ)) (s : SState) : SState :=
  { s with embs := fe s.docs, fitted := true }

/-- `search` running against a pipeline state. -/
def searchS (s : SState) (nf : List ℚ → List ℚ) (q : List ℚ) (k : Nat) :
    List SearchResult :=
  dbSearch s.embs s.docs s.metas s.fitted nf q k

/-- Invariant satisfied by every chunk the chunker emits: it fits in
`maxSize`, or it is a single unsplittable sentence (no `". "` inside, and
no blank-line boundary either). -/
def GoodChunk (maxSize : Nat) (c : List Char) : Prop :=
  c.length ≤ maxSize ∨
    (containsPair '.' ' ' c = false ∧ containsPair '\n' '\n' c = false)

/-- Invariant on the `temp_chunk` accumulator of the sentence loop. -/
def TempOk (maxSize : Nat) (t : List Char) : Prop :=
  t = [] ∨ t.length ≤ maxSize ∨
    ∃ s, t = s ++ ['.', ' '] ∧ containsPair '.' ' ' s = false ∧
      containsPair '\n' '\n' s = false

/-- Invariant on the `current_chunk` accumulator of the paragraph loop. -/
def CurOk (maxSize : Nat) (c : List Char) : Prop :=
  c = [] ∨ c.length ≤ maxSize ∨
    (containsPair '.' ' ' c = false ∧ containsPair '\n' '\n' c = false)

theorem containsPair_iff_sub (x y : Char) :
    ∀ s : List Char, containsPair x y s = true ↔ [x, y] <:+: s
  | [] => by
    simp [containsPair]
  | [c] => by
    simp only [containsPair, Bool.false_eq_true, false_iff]
    intro h
    have := h.length_le
    simp at this
  | a :: b :: t => by
    simp only [containsPair, Bool.or_eq_true, Bool.and_eq_true, beq_iff_eq]
    constructor
    · rintro (⟨rfl, rfl⟩ | h)
      · exact ⟨[], t, rfl⟩
      · exact List.infix_cons ((containsPair_iff_sub x y (b :: t)).1 h)
    · intro h
      rcases List.infix_cons_iff.1 h with hp | hi
      · rcases List.cons_prefix_cons.1 hp with ⟨rfl, hp2⟩
        rcases List.cons_prefix_cons.1 hp2 with ⟨rfl, _⟩
        exact Or.inl ⟨rfl, rfl⟩
      · exact Or.inr ((containsPair_iff_sub x y (b :: t)).2 hi)

theorem consHead_ne_nil (c : Char) (l : List (List Char)) : consHead c l ≠ [] := by
  cases l <;> simp [consHead]

theorem splitPair_ne_nil (x y : Char) : ∀ s : List Char, splitPair x y s ≠ []
  | [] => by simp [splitPair]
  | [c] => by simp [splitPair]
  | a :: b :: t => by
    by_cases h : a = x ∧ b = y <;> simp [splitPair, h, consHead_ne_nil]

theorem splitPair_within (x y : Char) :
    ∀ s : List Char,
      (∀ p ∈ splitPair x y s, p <:+: s) ∧
      ∀ h t, splitPair x y s = h :: t → h <+: s
  | [] => by
    refine ⟨?_, ?_⟩ <;> simp [splitPair]
  | [c] => by
    refine ⟨?_, ?_⟩ <;> simp [splitPair]
  | a :: b :: t => by
    by_cases hxy : a = x ∧ b = y
    · constructor
      · intro p hp
        simp only [splitPair, if_pos hxy, List.mem_cons] at hp
        rcases hp with rfl | hp2
        · exact ⟨[], a :: b :: t, rfl⟩
        · exact List.infix_cons (List.infix_cons
            ((splitPair_within x y t).1 p hp2))
      · intro h tl heq
        simp only [splitPair, if_pos hxy, List.cons.injEq] at heq
        exact heq.1 ▸ List.nil_prefix
    · rcases hsp : splitPair x y (b :: t) with _ | ⟨h2, t2⟩
      · exact absurd hsp (splitPair_ne_nil x y (b :: t))
      · have hcons : splitPair x y (a :: b :: t) = (a :: h2) :: t2 := by
          simp [splitPair, hxy, hsp, consHead]
        have hpre : h2 <+: b :: t := (splitPair_within x y (b :: t)).2 h2 t2 hsp
        constructor
        · intro p hp
          rw [hcons, List.mem_cons] at hp
          rcases hp with rfl | hp2
          · exact (List.cons_prefix_cons.2 ⟨rfl, hpre⟩).isInfix
          · exact List.infix_cons ((splitPair_within x y (b :: t)).1 p
              (hsp ▸ List.mem_cons_of_mem h2 hp2))
        · intro h tl heq
          rw [hcons, List.cons.injEq] at heq
          exact heq.1 ▸ List.cons_prefix_cons.2 ⟨rfl, hpre⟩

theorem mem_splitPair_within (x y : Char) (s : List Char) :
    ∀ p ∈ splitPair x y s, p <:+: s :=
  (splitPair_within x y s).1

theorem splitPair_head_shape (x y c : Char) (s : List Char) :
    ∀ {h tl}, splitPair x y (c :: s) = h :: tl → h = [] ∨ ∃ h2, h = c :: h2 := by
  intro h tl heq
  cases s with
  | nil =>
    simp only [splitPair, List.cons.injEq] at heq
    exact Or.inr ⟨[], heq.1.symm⟩
  | cons d t =>
    by_cases hxy : c = x ∧ d = y
    · simp only [splitPair, if_pos hxy, List.cons.injEq] at heq
      exact Or.inl heq.1.symm
    · rcases hsp : splitPair x y (d :: t) with _ | ⟨h2, t2⟩
      · exact absurd hsp (splitPair_ne_nil x y (d :: t))
      · rw [splitPair, if_neg hxy, hsp] at heq
        simp only [consHead, List.cons.injEq] at heq
        exact Or.inr ⟨h2, heq.1.symm⟩

theorem mem_splitPair_pairFree (x y : Char) :
    ∀ s : List Char, ∀ p ∈ splitPair x y s, containsPair x y p = false
  | [] => by simp [splitPair, containsPair]
  | [c] => by simp [splitPair, containsPair]
  | a :: b :: t => by
    intro p hp
    by_cases hxy : a = x ∧ b = y
    · simp only [splitPair, if_pos hxy, List.mem_cons] at hp
      rcases hp with rfl | hp2
      · rfl
      · exact mem_splitPair_pairFree x y t p hp2
    · rcases hsp : splitPair x y (b :: t) with _ | ⟨h2, t2⟩
      · exact absurd hsp (splitPair_ne_nil x y (b :: t))
      · have hcons : splitPair x y (a :: b :: t) = (a :: h2) :: t2 := by
          simp [splitPair, hxy, hsp, consHead]
        rw [hcons, List.mem_cons] at hp
        rcases hp with rfl | hp2
        · have hfree2 : containsPair x y h2 = false :=
            mem_splitPair_pairFree x y (b :: t) h2 (hsp ▸ List.mem_cons_self h2 t2)
          rcases splitPair_head_shape x y b t hsp with rfl | ⟨h3, rfl⟩
          · rfl
          · have hshape : containsPair x y (a :: b :: h3) =
                ((a == x && b == y) || containsPair x y (b :: h3)) := rfl
            rw [hshape, hfree2, Bool.or_false]
            rcases not_and_or.1 hxy with h | h <;> simp [h]
        · exact mem_splitPair_pairFree x y (b :: t) p
            (hsp ▸ List.mem_cons_of_mem h2 hp2)

theorem splitPair_eq_single (x y : Char) :
    ∀ s : List Char, containsPair x y s = false → splitPair x y s = [s]
  | [] => fun _ => rfl
  | [c] => fun _ => rfl
  | a :: b :: t => by
    intro hfree
    have hshape : containsPair x y (a :: b :: t) =
        ((a == x && b == y) || containsPair x y (b :: t)) := rfl
    rw [hshape, Bool.or_eq_false_iff] at hfree
    have hxy : ¬(a = x ∧ b = y) := by
      rintro ⟨rfl, rfl⟩
      simp at hfree
    rw [splitPair, if_neg hxy, splitPair_eq_single x y (b :: t) hfree.2]
    rfl

theorem pyStrip_within (s : List Char) : pyStrip s <:+: s := by
  unfold pyStrip
  have h1 : s.dropWhile isPySpace <:+ s := List.dropWhile_suffix _
  have h2 : (s.dropWhile isPySpace).reverse.dropWhile isPySpace <:+
      (s.dropWhile isPySpace).reverse := List.dropWhile_suffix _
  obtain ⟨w, hw⟩ := h2
  have h3 : ((s.dropWhile isPySpace).reverse.dropWhile isPySpace).reverse <+:
      s.dropWhile isPySpace := by
    refine ⟨w.reverse, ?_⟩
    have := congrArg List.reverse hw
    simpa [List.reverse_append] using this
  exact h3.isInfix.trans h1.isInfix

theorem pyStrip_length_le (s : List Char) : (pyStrip s).length ≤ s.length :=
  (pyStrip_within s).length_le

theorem containsPair_false_of_within (x y : Char) {t s : List Char}
    (h : t <:+: s) (hf : containsPair x y s = false) :
    containsPair x y t = false := by
  by_contra hc
  rw [Bool.not_eq_false] at hc
  have h2 := (containsPair_iff_sub x y s).2
    (((containsPair_iff_sub x y t).1 hc).trans h)
  simp [hf] at h2

theorem containsPair_append_single (x y c : Char) (hne : y ≠ c) :
    ∀ s : List Char, containsPair x y s = false →
      containsPair x y (s ++ [c]) = false
  | [] => fun _ => by simp [containsPair]
  | [d] => fun _ => by
    have hcy : (c == y) = false := beq_eq_false_iff_ne.2 (fun h => hne h.symm)
    simp [containsPair, hcy]
  | a :: b :: t => fun hf => by
    have hshape : containsPair x y (a :: b :: t) =
        ((a == x && b == y) || containsPair x y (b :: t)) := rfl
    rw [hshape, Bool.or_eq_false_iff] at hf
    have hshape2 : containsPair x y ((a :: b :: t) ++ [c]) =
        ((a == x && b == y) || containsPair x y ((b :: t) ++ [c])) := rfl
    rw [hshape2, hf.1, Bool.false_or]
    exact containsPair_append_single x y c hne (b :: t) hf.2

theorem dropWhile_append_pair (p : Char → Bool) (s : List Char) (c d : Char)
    (hc : p c = false) :
    (s ++ [c, d]).dropWhile p = s.dropWhile p ++ [c, d] := by
  induction s with
  | nil => simp [List.dropWhile, hc]
  | cons a t ih =>
    by_cases ha : p a
    · simpa [List.dropWhile, ha] using ih
    · simp [List.dropWhile, ha]

theorem pyStrip_append_dot_space (s : List Char) :
    pyStrip (s ++ ['.', ' ']) = s.dropWhile isPySpace ++ ['.'] := by
  unfold pyStrip
  rw [dropWhile_append_pair isPySpace s '.' ' ' (by decide)]
  have hrev : (s.dropWhile isPySpace ++ ['.', ' ']).reverse =
      ' ' :: '.' :: (s.dropWhile isPySpace).reverse := by
    simp
  rw [hrev]
  have h1 : isPySpace ' ' = true := by decide
  have h2 : isPySpace '.' = false := by decide
  have hdrop : (' ' :: '.' :: (s.dropWhile isPySpace).reverse).dropWhile isPySpace
      = '.' :: (s.dropWhile isPySpace).reverse := by
    simp [List.dropWhile, h1, h2]
  rw [hdrop]
  simp

theorem foldl_preserve {α σ : Type _} {f : σ → α → σ} {P : σ → Prop} {Q : α → Prop}
    (step : ∀ s a, P s → Q a → P (f s a)) :
    ∀ (l : List α) (s : σ), P s → (∀ a ∈ l, Q a) → P (l.foldl f s)
  | [], _, hs, _ => hs
  | a :: t, s, hs, hq =>
    foldl_preserve step t (f s a) (step s a hs (hq a (List.mem_cons_self a t)))
      (fun b hb => hq b (List.mem_cons_of_mem a hb))

theorem goodChunk_pyStrip_of_tempOk (maxSize : Nat) {t : List Char}
    (h : TempOk maxSize t) (hne : t ≠ []) : GoodChunk maxSize (pyStrip t) := by
  rcases h with hnil | hle | ⟨s0, heq, hf1, hf2⟩
  · exact absurd hnil hne
  · exact Or.inl ((pyStrip_length_le t).trans hle)
  · rw [heq, pyStrip_append_dot_space]
    refine Or.inr ⟨?_, ?_⟩
    · exact containsPair_append_single '.' ' ' '.' (by decide) _
        (containsPair_false_of_within '.' ' ' (List.dropWhile_suffix _).isInfix hf1)
    · exact containsPair_append_single '\n' '\n' '.' (by decide) _
        (containsPair_false_of_within '\n' '\n' (List.dropWhile_suffix _).isInfix hf2)

theorem goodChunk_pyStrip_of_curOk (maxSize : Nat) {c : List Char}
    (h : CurOk maxSize c) (hne : c ≠ []) : GoodChunk maxSize (pyStrip c) := by
  rcases h with hnil | hle | ⟨hf1, hf2⟩
  · exact absurd hnil hne
  · exact Or.inl ((pyStrip_length_le c).trans hle)
  · exact Or.inr ⟨containsPair_false_of_within '.' ' ' (pyStrip_within c) hf1,
      containsPair_false_of_within '\n' '\n' (pyStrip_within c) hf2⟩

theorem sentStep_inv (maxSize : Nat) (st : List (List Char) × List Char)
    (s : List Char)
    (h : (∀ c ∈ st.1, GoodChunk maxSize c) ∧ TempOk maxSize st.2)
    (hs : containsPair '.' ' ' s = false ∧ containsPair '\n' '\n' s = false) :
    (∀ c ∈ (sentStep maxSize st s).1, GoodChunk maxSize c) ∧
    TempOk maxSize (sentStep maxSize st s).2 := by
  obtain ⟨h1, h2⟩ := h
  unfold sentStep
  by_cases ho : maxSize < st.2.length + s.length + 2 ∧ st.2 ≠ []
  · rw [if_pos ho]
    refine ⟨?_, Or.inr (Or.inr ⟨s, rfl, hs.1, hs.2⟩)⟩
    intro c hc
    rcases List.mem_append.1 hc with hc | hc
    · exact h1 c hc
    · rw [List.mem_singleton] at hc
      exact hc ▸ goodChunk_pyStrip_of_tempOk maxSize h2 ho.2
  · rw [if_neg ho]
    refine ⟨h1, ?_⟩
    by_cases hnil : st.2 = []
    · exact Or.inr (Or.inr ⟨s, by rw [hnil]; rfl, hs.1, hs.2⟩)
    · have hcond : ¬ maxSize < st.2.length + s.length + 2 := fun hc => ho ⟨hc, hnil⟩
      have hle2 : st.2.length + s.length + 2 ≤ maxSize := Nat.le_of_not_lt hcond
      refine Or.inr (Or.inl ?_)
      simp only [List.length_append, List.length_cons, List.length_nil]
      omega

theorem sentLoop_inv (maxSize : Nat) (chunks : List (List Char)) (p : List Char)
    (hch : ∀ c ∈ chunks, GoodChunk maxSize c)
    (hp : containsPair '\n' '\n' p = false) :
    (∀ c ∈ (sentLoop maxSize chunks p).1, GoodChunk maxSize c) ∧
    TempOk maxSize (sentLoop maxSize chunks p).2 := by
  unfold sentLoop
  refine foldl_preserve
    (P := fun (st : List (List Char) × List Char) =>
      (∀ c ∈ st.1, GoodChunk maxSize c) ∧ TempOk maxSize st.2)
    (Q := fun s => containsPair '.' ' ' s = false ∧ containsPair '\n' '\n' s = false)
    (sentStep_inv maxSize) _ _ ⟨hch, Or.inl rfl⟩ ?_
  intro s hsmem
  exact ⟨mem_splitPair_pairFree '.' ' ' p s hsmem,
    containsPair_false_of_within '\n' '\n' (mem_splitPair_within '.' ' ' p s hsmem) hp⟩

theorem flushCur_inv (maxSize : Nat) (st : List (List Char) × List Char)
    (h1 : ∀ c ∈ st.1, GoodChunk maxSize c) (h2 : CurOk maxSize st.2) :
    ∀ c ∈ flushCur st, GoodChunk maxSize c := by
  unfold flushCur
  by_cases hnil : st.2 = []
  · rw [if_pos hnil]; exact h1
  · rw [if_neg hnil]
    intro c hc
    rcases List.mem_append.1 hc with hc | hc
    · exact h1 c hc
    · rw [List.mem_singleton] at hc
      exact hc ▸ goodChunk_pyStrip_of_curOk maxSize h2 hnil

theorem parStep_inv (maxSize : Nat) (st : List (List Char) × List Char)
    (p : List Char)
    (h : (∀ c ∈ st.1, GoodChunk maxSize c) ∧ CurOk maxSize st.2)
    (hp : containsPair '\n' '\n' p = false) :
    (∀ c ∈ (parStep maxSize st p).1, GoodChunk maxSize c) ∧
    CurOk maxSize (parStep maxSize st p).2 := by
  obtain ⟨h1, h2⟩ := h
  unfold parStep
  by_cases hbig : maxSize < st.2.length + p.length + 2
  · rw [if_pos hbig]
    by_cases hlong : maxSize < p.length
    · rw [if_pos hlong]
      obtain ⟨hc, ht⟩ := sentLoop_inv maxSize (flushCur st) p
        (flushCur_inv maxSize st h1 h2) hp
      refine ⟨hc, ?_⟩
      by_cases hte : (sentLoop maxSize (flushCur st) p).2 = []
      · rw [if_pos hte]; exact Or.inl rfl
      · rw [if_neg hte]
        rcases goodChunk_pyStrip_of_tempOk maxSize ht hte with hle | hfree
        · exact Or.inr (Or.inl hle)
        · exact Or.inr (Or.inr hfree)
    · rw [if_neg hlong]
      exact ⟨flushCur_inv maxSize st h1 h2,
        Or.inr (Or.inl (Nat.le_of_not_lt hlong))⟩
  · rw [if_neg hbig]
    have hle2 : st.2.length + p.length + 2 ≤ maxSize := Nat.le_of_not_lt hbig
    refine ⟨h1, ?_⟩
    by_cases hnil : st.2 = []
    · rw [if_pos hnil]
      refine Or.inr (Or.inl ?_)
      show p.length ≤ maxSize
      omega
    · rw [if_neg hnil]
      refine Or.inr (Or.inl ?_)
      show (st.2 ++ (['\n', '\n'] ++ p)).length ≤ maxSize
      simp only [List.length_append, List.length_cons, List.length_nil]
      omega

theorem chunkText_good (text : List Char) (maxSize : Nat) :
    ∀ c ∈ chunkText text maxSize, GoodChunk maxSize c := by
  unfold chunkText
  by_cases hle : text.length ≤ maxSize
  · rw [if_pos hle]
    intro c hc
    rw [List.mem_singleton] at hc
    exact hc ▸ Or.inl (hc ▸ hle)
  · rw [if_neg hle]
    have hmain : (∀ c ∈ ((splitPair '\n' '\n' text).foldl (parStep maxSize)
        ([], [])).1, GoodChunk maxSize c) ∧
        CurOk maxSize ((splitPair '\n' '\n' text).foldl (parStep maxSize)
          ([], [])).2 := by
      refine foldl_preserve
        (P := fun (st : List (List Char) × List Char) =>
          (∀ c ∈ st.1, GoodChunk maxSize c) ∧ CurOk maxSize st.2)
        (Q := fun q => containsPair '\n' '\n' q = false)
        (parStep_inv maxSize) _ _ ⟨by simp, Or.inl rfl⟩ ?_
      exact mem_splitPair_pairFree '\n' '\n' text
    obtain ⟨hc, hcur⟩ := hmain
    by_cases hnil : ((splitPair '\n' '\n' text).foldl (parStep maxSize) ([], [])).2 = []
    · rw [if_pos hnil]; exact hc
    · rw [if_neg hnil]
      intro c hcm
      rcases List.mem_append.1 hcm with hcm | hcm
      · exact hc c hcm
      · rw [List.mem_singleton] at hcm
        exact hcm ▸ goodChunk_pyStrip_of_curOk maxSize hcur hnil

theorem chunkText_of_fits {text : List Char} {maxSize : Nat}
    (h : text.length ≤ maxSize) : chunkText text maxSize = [text] := by
  simp [chunkText, h]

theorem chunkText_rechunk_one (text : List Char) (maxSize : Nat) :
    ∀ c ∈ chunkText text maxSize, (chunkText c maxSize).length = 1 := by
  intro c hc
  by_cases hle2 : c.length ≤ maxSize
  · rw [chunkText_of_fits hle2]
    rfl
  · rcases chunkText_good text maxSize c hc with hle | ⟨hds, hnn⟩
    · exact absurd hle hle2
    · have hlong : maxSize < c.length := Nat.lt_of_not_le hle2
      unfold chunkText
      rw [if_neg hle2, splitPair_eq_single '\n' '\n' c hnn]
      simp only [List.foldl_cons, List.foldl_nil]
      have hpar : parStep maxSize ([], []) c =
          ([], pyStrip (c ++ ['.', ' '])) := by
        unfold parStep
        rw [if_pos (by simp; omega), if_pos hlong]
        have hflush : flushCur (([] : List (List Char)), ([] : List Char)) = [] := by
          simp [flushCur]
        have hsl : sentLoop maxSize [] c = ([], c ++ ['.', ' ']) := by
          unfold sentLoop
          rw [splitPair_eq_single '.' ' ' c hds]
          simp only [List.foldl_cons, List.foldl_nil]
          unfold sentStep
          rw [if_neg (by simp)]
          rfl
        rw [hflush, hsl]
        have hne : c ++ ['.', ' '] ≠ [] := by simp
        simp [hne]
      rw [hpar]
      have hne2 : pyStrip (c ++ ['.', ' ']) ≠ [] := by
        rw [pyStrip_append_dot_space]
        simp
      simp [hne2]

/-- C1: the chunker is not lossless modulo whitespace normalization.  On
the input `"ab. cd"` with `max_size = 5` the code's sentence loop appends
`". "` after the final sentence as well, so the concatenated output
(whitespace removed) is `"ab.cd."` while the input (whitespace removed) is
`"ab.cd"` — a period has been injected into the stored content. -/
theorem chunk_concat_gains_period_at_failing_input :
    chunkText "ab. cd".toList 5 = ["ab.".toList, "cd.".toList] ∧
    squeezeWS (joinAll (chunkText "ab. cd".toList 5)) =
      "ab.cd.".toList ∧
    squeezeWS "ab. cd".toList = "ab.cd".toList ∧
    squeezeWS (joinAll (chunkText "ab. cd".toList 5)) ≠
      squeezeWS "ab. cd".toList := by
  refine ⟨by decide, by decide, by decide, by decide⟩

/-- C2: every segment the chunker returns either fits in `max_size` or
contains no `". "` sentence boundary at all (it is a single unsplittable
sentence kept whole). -/
theorem chunk_size_bound_or_single_sentence (text : List Char) (maxSize : Nat) :
    ∀ c ∈ chunkText text maxSize,
      c.length ≤ maxSize ∨ containsPair '.' ' ' c = false := by
  intro c hc
  rcases chunkText_good text maxSize c hc with hle | ⟨hds, _⟩
  · exact Or.inl hle
  · exact Or.inr hds

/-- Witness for C2 at a concrete input: the oversized single-sentence
segment `"ab."` produced from `"ab. cd"` with `max_size = 5`. -/
theorem chunk_size_bound_or_single_sentence_witness :
    ("ab.".toList ∈ chunkText "ab. cd".toList 5) ∧
    ("ab.".toList.length ≤ 5 ∨ containsPair '.' ' ' "ab.".toList = false) :=
  ⟨by decide,
    chunk_size_bound_or_single_sentence "ab. cd".toList 5 "ab.".toList (by decide)⟩

/-- C3 counterexample: the chunker can return an empty sequence (a long
text whose paragraphs are all empty) and can emit an empty-string segment
(a whitespace-only paragraph is flushed after being stripped, the
emptiness guard having been checked before the strip). -/
theorem chunk_empty_output_and_empty_segment :
    chunkText "\n\n".toList 1 = [] ∧
    [] ∈ chunkText "abcd\n\n \n\nefgh".toList 5 := by
  refine ⟨by decide, by decide⟩

/-- C3 as amended: when the text already fits (`len(text) <= max_size`)
the chunker returns exactly `[text]`; the never-empty / no-empty-segment
guarantees fail in general (see the counterexample). -/
theorem chunk_small_text_exact {text : List Char} {maxSize : Nat}
    (h : text.length ≤ maxSize) : chunkText text maxSize = [text] :=
  chunkText_of_fits h

/-- Witness for the amended C3 at `text = "hi"`, `max_size = 5`. -/
theorem chunk_small_text_exact_witness :
    ("hi".toList.length ≤ 5) ∧ chunkText "hi".toList 5 = ["hi".toList] :=
  ⟨by decide, chunk_small_text_exact (by decide)⟩

theorem chunkMetas_length (base : Meta) (n : Nat) : (chunkMetas base n).length = n := by
  simp [chunkMetas]

theorem rebuildRes_documents (f : List (List Char) → Bool) (s1 : VDB) :
    (rebuildRes f s1).1.documents = s1.documents := by
  unfold rebuildRes rebuildIx
  split_ifs <;> rfl

theorem rebuildRes_metadata (f : List (List Char) → Bool) (s1 : VDB) :
    (rebuildRes f s1).1.metadata = s1.metadata := by
  unfold rebuildRes rebuildIx
  split_ifs <;> rfl

theorem rebuildRes_sync (f : List (List Char) → Bool) (s1 : VDB)
    (hflag : (rebuildRes f s1).2 = true)
    (hpre : s1.documents = [] → vectorRows s1 = 0) :
    vectorRows (rebuildRes f s1).1 = s1.documents.length := by
  unfold rebuildRes rebuildIx at *
  by_cases hnil : s1.documents = []
  · rw [if_pos hnil] at *
    rw [hpre hnil, hnil]
    rfl
  · rw [if_neg hnil] at *
    by_cases hfit : f s1.documents = true
    · rw [if_pos hfit] at *
      simp [vectorRows]
    · rw [if_neg hfit] at hflag
      simp at hflag

theorem addDocR_documents_length (f : List (List Char) → Bool) (s : VDB)
    (t : List Char) (m : Option Meta) :
    (addDocR f s t m).1.documents.length =
      s.documents.length + (chunkText t 500).length := by
  unfold addDocR
  rw [rebuildRes_documents]
  simp

theorem addDocR_metadata (f : List (List Char) → Bool) (s : VDB)
    (t : List Char) (m : Option Meta) :
    (addDocR f s t m).1.metadata =
      s.metadata ++ chunkMetas (m.getD default) (chunkText t 500).length := by
  unfold addDocR
  rw [rebuildRes_metadata]

theorem addDocR_counts (f : List (List Char) → Bool) (s : VDB)
    (t : List Char) (m : Option Meta)
    (h : s.documents.length = s.metadata.length) :
    (addDocR f s t m).1.documents.length = (addDocR f s t m).1.metadata.length := by
  rw [addDocR_documents_length, addDocR_metadata]
  simp [chunkMetas_length, h]

theorem addDocR_sync (f : List (List Char) → Bool) (s : VDB)
    (t : List Char) (m : Option Meta)
    (hsync : vectorRows s = s.documents.length)
    (hflag : (addDocR f s t m).2 = true) :
    vectorRows (addDocR f s t m).1 = (addDocR f s t m).1.documents.length := by
  unfold addDocR at *
  rw [rebuildRes_documents]
  refine rebuildRes_sync f _ hflag ?_
  intro hnil
  simp only [List.append_eq_nil] at hnil
  show s.ntotal.getD 0 = 0
  have := hsync
  rw [hnil.1] at this
  exact this

theorem deleteByR_inv (f : List (List Char) → Bool) (s : VDB) (fn : List Char) :
    ((deleteByR f s fn).1.documents.length = (deleteByR f s fn).1.metadata.length) ∧
    ((deleteByR f s fn).2 = true →
      vectorRows (deleteByR f s fn).1 = (deleteByR f s fn).1.documents.length) := by
  unfold deleteByR
  refine foldl_preserve
    (P := fun (acc : VDB × Bool) =>
      (acc.1.documents.length = acc.1.metadata.length) ∧
      (acc.2 = true → vectorRows acc.1 = acc.1.documents.length))
    (Q := fun (_ : List Char × Meta) => True) ?_ _ _ ⟨rfl, fun _ => rfl⟩
    (fun _ _ => trivial)
  rintro ⟨acc, flag⟩ dm ⟨hc, hs⟩ _
  by_cases hflag : flag = true
  · subst hflag
    simp only [if_pos rfl]
    refine ⟨addDocR_counts f acc dm.1 (some dm.2) hc, ?_⟩
    exact addDocR_sync f acc dm.1 (some dm.2) (hs rfl)
  · have : flag = false := by
      cases flag
      · rfl
      · exact absurd rfl hflag
    subst this
    simp only [Bool.false_eq_true, if_neg]
    exact ⟨hc, fun hcon => absurd hcon (by simp)⟩

theorem stepOp_counts (f : List (List Char) → Bool) (s : VDB) (op : DbOp)
    (hc : s.documents.length = s.metadata.length) :
    (stepOp f s op).1.documents.length = (stepOp f s op).1.metadata.length := by
  cases op with
  | add t m => exact addDocR_counts f s t m hc
  | deleteBy fn => exact (deleteByR_inv f s fn).1
  | clearAll => rfl

theorem stepOp_sync (f : List (List Char) → Bool) (s : VDB) (op : DbOp)
    (hsync : vectorRows s = s.documents.length)
    (hflag : (stepOp f s op).2 = true) :
    vectorRows (stepOp f s op).1 = (stepOp f s op).1.documents.length := by
  cases op with
  | add t m => exact addDocR_sync f s t m hsync hflag
  | deleteBy fn => exact (deleteByR_inv f s fn).2 hflag
  | clearAll => rfl

theorem runOps_inv (f : List (List Char) → Bool) (ops : List DbOp) :
    ((runOps f ops).1.documents.length = (runOps f ops).1.metadata.length) ∧
    ((runOps f ops).2 = true →
      vectorRows (runOps f ops).1 = (runOps f ops).1.documents.length) := by
  unfold runOps
  refine foldl_preserve
    (P := fun (acc : VDB × Bool) =>
      (acc.1.documents.length = acc.1.metadata.length) ∧
      (acc.2 = true → vectorRows acc.1 = acc.1.documents.length))
    (Q := fun (_ : DbOp) => True) ?_ _ _ ⟨rfl, fun _ => rfl⟩ (fun _ _ => trivial)
  rintro ⟨acc, flag⟩ op ⟨hc, hs⟩ _
  refine ⟨stepOp_counts f acc op hc, ?_⟩
  intro hand
  rw [Bool.and_eq_true] at hand
  exact stepOp_sync f acc op (hs hand.1) hand.2

/-- C4 counterexample: a single `add_document("the")` under a vectorizer
that rejects the degenerate corpus `["the"]` (an English stop word, so the
TF-IDF vocabulary is empty and sklearn raises) leaves one content row and
one metadata row but an absent index (zero rows): after an operation that
raised, the three counts are not equal. -/
theorem vdb_index_rows_diverge_after_raise :
    (runOps (fun ds => !(ds == ["the".toList]))
        [DbOp.add "the".toList none]).1.documents.length = 1 ∧
    (runOps (fun ds => !(ds == ["the".toList]))
        [DbOp.add "the".toList none]).1.metadata.length = 1 ∧
    vectorRows (runOps (fun ds => !(ds == ["the".toList]))
        [DbOp.add "the".toList none]).1 = 0 ∧
    (runOps (fun ds => !(ds == ["the".toList]))
        [DbOp.add "the".toList none]).2 = false := by
  refine ⟨by decide, by decide, by decide, by decide⟩

/-- C4 as amended: after any sequence of operations the content and
metadata rows are always equal in number (even across raising operations),
and the index row count equals them whenever no operation raised. -/
theorem vdb_counts_aligned (f : List (List Char) → Bool) (ops : List DbOp) :
    ((runOps f ops).1.documents.length = (runOps f ops).1.metadata.length) ∧
    ((runOps f ops).2 = true →
      vectorRows (runOps f ops).1 = (runOps f ops).1.documents.length) :=
  runOps_inv f ops

/-- Witness for the amended C4: an always-successful vectorizer and one
add; all three counts equal 1. -/
theorem vdb_counts_aligned_witness :
    ((runOps (fun _ => true) [DbOp.add "hi".toList none]).1.documents.length =
      (runOps (fun _ => true) [DbOp.add "hi".toList none]).1.metadata.length) ∧
    vectorRows (runOps (fun _ => true) [DbOp.add "hi".toList none]).1 =
      (runOps (fun _ => true) [DbOp.add "hi".toList none]).1.documents.length :=
  ⟨(vdb_counts_aligned (fun _ => true) [DbOp.add "hi".toList none]).1,
    (vdb_counts_aligned (fun _ => true) [DbOp.add "hi".toList none]).2 (by decide)⟩

/-- C9: the in-memory effect of `add_document` is independent of the
persistence adapter: for every pattern of per-chunk `save_document`
failures the resulting state and success flag coincide with those of the
persistence-free `add_document` (the exception is caught inside the loop;
the chunk is still appended and the index still rebuilt, and only a fit
failure can make the operation raise). -/
theorem add_document_ignores_save_failures
    (fitOk : List (List Char) → Bool) (saveOk : List Char → Meta → Bool)
    (s : VDB) (db : List (List Char × Meta)) (text : List Char)
    (meta : Option Meta) :
    (addDocP fitOk saveOk s db text meta).1.1 = (addDocR fitOk s text meta).1 ∧
    (addDocP fitOk saveOk s db text meta).2 = (addDocR fitOk s text meta).2 := by
  unfold addDocP addDocR
  exact ⟨rfl, rfl⟩

theorem mkResults_length (docs : List (List Char)) (metas : List Meta) :
    ∀ (r0 : Nat) (ps : List (Nat × ℚ)),
      (mkResults docs metas r0 ps).length = ps.length
  | _, [] => rfl
  | r0, (_, _) :: rest => by
    simp [mkResults, mkResults_length docs metas (r0 + 1) rest]

theorem mkResults_get_rank (docs : List (List Char)) (metas : List Meta) :
    ∀ (r0 : Nat) (ps : List (Nat × ℚ)) (i : Nat)
      (h : i < (mkResults docs metas r0 ps).length),
      ((mkResults docs metas r0 ps).get ⟨i, h⟩).rank = r0 + i + 1
  | _, [], i, h => absurd h (by simp [mkResults])
  | r0, (idx, sc) :: rest, 0, h => rfl
  | r0, (idx, sc) :: rest, Nat.succ i, h => by
    have hlt : i < (mkResults docs metas (r0 + 1) rest).length := by
      have := h
      simp only [mkResults, List.length_cons] at this
      omega
    have := mkResults_get_rank docs metas (r0 + 1) rest i hlt
    simp only [mkResults, List.get_cons_succ]
    rw [this]
    omega

theorem mkResults_mem (docs : List (List Char)) (metas : List Meta) :
    ∀ (r0 : Nat) (ps : List (Nat × ℚ)) (r : SearchResult),
      r ∈ mkResults docs metas r0 ps →
      ∃ p ∈ ps, r.score = p.2 ∧ r.metadata = metas.getD p.1 default
  | _, [], r, hr => absurd hr (by simp [mkResults])
  | r0, (idx, sc) :: rest, r, hr => by
    rcases List.mem_cons.1 hr with rfl | hr2
    · exact ⟨(idx, sc), List.mem_cons_self _ _, rfl, rfl⟩
    · obtain ⟨p, hp, hs, hm⟩ := mkResults_mem docs metas (r0 + 1) rest r hr2
      exact ⟨p, List.mem_cons_of_mem _ hp, hs, hm⟩

theorem mkResults_pairwise_score (docs : List (List Char)) (metas : List Meta) :
    ∀ (r0 : Nat) (ps : List (Nat × ℚ)),
      List.Pairwise (fun (a b : Nat × ℚ) => b.2 ≤ a.2) ps →
      List.Pairwise (fun (x y : SearchResult) => y.score ≤ x.score)
        (mkResults docs metas r0 ps)
  | _, [], _ => List.Pairwise.nil
  | r0, (idx, sc) :: rest, h => by
    rw [List.pairwise_cons] at h
    refine List.pairwise_cons.2 ⟨?_, mkResults_pairwise_score docs metas (r0 + 1) rest h.2⟩
    intro y hy
    obtain ⟨p, hp, hs, _⟩ := mkResults_mem docs metas (r0 + 1) rest y hy
    rw [hs]
    exact h.1 p hp

theorem scoredRows_length (embs : List (List ℚ)) (qv : List ℚ) :
    (scoredRows embs qv).length = embs.length := by
  simp [scoredRows]

theorem scoredRows_nodup (embs : List (List ℚ)) (qv : List ℚ) :
    (scoredRows embs qv).Nodup := by
  refine List.Nodup.map ?_ (List.nodup_range embs.length)
  intro a b hab
  simpa using congrArg Prod.fst hab

theorem mem_scoredRows_score (embs : List (List ℚ)) (qv : List ℚ)
    {p : Nat × ℚ} (h : p ∈ scoredRows embs qv) :
    p.2 = dot qv (embs.getD p.1 []) := by
  simp only [scoredRows, List.mem_map, List.mem_range] at h
  obtain ⟨i, _, rfl⟩ := h
  rfl

theorem faissTopK_length (embs : List (List ℚ)) (qv : List ℚ) (k : Nat) :
    (faissTopK embs qv k).length = min k embs.length := by
  simp [faissTopK, List.length_take,
    (List.perm_insertionSort cmpRel (scoredRows embs qv)).length_eq,
    scoredRows_length]

theorem faissTopK_sorted (embs : List (List ℚ)) (qv : List ℚ) (k : Nat) :
    (faissTopK embs qv k).Pairwise cmpRel :=
  (List.sorted_insertionSort cmpRel (scoredRows embs qv)).sublist
    (List.take_sublist k _)

theorem mem_faissTopK (embs : List (List ℚ)) (qv : List ℚ) (k : Nat)
    {p : Nat × ℚ} (h : p ∈ faissTopK embs qv k) : p ∈ scoredRows embs qv :=
  (List.perm_insertionSort cmpRel (scoredRows embs qv)).mem_iff.1
    ((List.take_sublist k _).subset h)

theorem faissTopK_strict (embs : List (List ℚ)) (qv : List ℚ) (k : Nat) :
    (faissTopK embs qv k).Pairwise
      (fun a b => b.2 < a.2 ∨ (a.2 = b.2 ∧ a.1 < b.1)) := by
  have hnd : (List.insertionSort cmpRel (scoredRows embs qv)).Nodup :=
    (List.perm_insertionSort cmpRel (scoredRows embs qv)).symm.nodup
      (scoredRows_nodup embs qv)
  have hne : (faissTopK embs qv k).Pairwise (fun a b => a ≠ b) :=
    hnd.sublist (List.take_sublist k _)
  refine ((faissTopK_sorted embs qv k).and hne).imp ?_
  rintro a b ⟨hcmp, hab⟩
  rcases hcmp with hlt | ⟨heq, hle⟩
  · exact Or.inl hlt
  · refine Or.inr ⟨heq, lt_of_le_of_ne hle ?_⟩
    intro h1
    exact hab (Prod.ext h1 heq)

theorem sumSq_replicate_zero (d : Nat) : sumSq (List.replicate d 0) = 0 := by
  simp [sumSq]

theorem dot_replicate_zero (v : List ℚ) :
    ∀ d : Nat, dot (List.replicate d 0) v = 0 := by
  induction v with
  | nil =>
    intro d
    simp [dot]
  | cons a t ih =>
    intro d
    cases d with
    | zero => simp [dot]
    | succ d2 =>
      have : dot (List.replicate (d2 + 1) 0) (a :: t) =
          0 * a + dot (List.replicate d2 0) t := by
        simp [dot, List.replicate_succ]
      rw [this, ih d2]
      ring

theorem dbSearch_eq_of_ne (embs : List (List ℚ)) (docs : List (List Char))
    (metas : List Meta) (nf : List ℚ → List ℚ) (q : List ℚ) (k : Nat)
    (hne : docs.length ≠ 0) :
    dbSearch embs docs metas true nf q k =
      mkResults docs metas 0
        (faissTopK embs (if 0 < sumSq q then nf q else q) (min k docs.length)) := by
  unfold dbSearch
  rw [if_neg]
  simp [hne]

/-- C5: against a fitted index in sync with the store, `search` returns
exactly `min(k, n)` results, whose ranks are `1, 2, ...` consecutively and
whose scores are in descending order; on an empty corpus it returns the
empty list instead of raising. -/
theorem search_count_ranks_and_order (embs : List (List ℚ))
    (docs : List (List Char)) (metas : List Meta) (nf : List ℚ → List ℚ)
    (q : List ℚ) (k : Nat) (hlen : embs.length = docs.length) :
    (dbSearch embs docs metas true nf q k).length = min k docs.length ∧
    (∀ i (h : i < (dbSearch embs docs metas true nf q k).length),
      ((dbSearch embs docs metas true nf q k).get ⟨i, h⟩).rank = i + 1) ∧
    List.Pairwise (fun x y => y.score ≤ x.score)
      (dbSearch embs docs metas true nf q k) ∧
    (∀ nf2 q2 k2, dbSearch embs [] metas true nf2 q2 k2 = []) := by
  have hlast : ∀ nf2 q2 k2, dbSearch embs [] metas true nf2 q2 k2 = [] := by
    intro nf2 q2 k2
    unfold dbSearch
    simp
  by_cases h0 : docs.length = 0
  · have hnil : dbSearch embs docs metas true nf q k = [] := by
      unfold dbSearch
      simp [h0]
    rw [hnil]
    refine ⟨by simp [h0], ?_, List.Pairwise.nil, hlast⟩
    intro i h
    simp at h
  · rw [dbSearch_eq_of_ne embs docs metas nf q k h0]
    have hlen2 : (faissTopK embs (if 0 < sumSq q then nf q else q)
        (min k docs.length)).length = min k docs.length := by
      rw [faissTopK_length, hlen]
      exact Nat.min_eq_left (Nat.min_le_right k docs.length)
    refine ⟨?_, ?_, ?_, hlast⟩
    · rw [mkResults_length, hlen2]
    · intro i h
      have := mkResults_get_rank docs metas 0 _ i h
      rw [this]
      omega
    · refine mkResults_pairwise_score docs metas 0 _ ?_
      refine (faissTopK_sorted embs _ _).imp ?_
      rintro a b (hlt | ⟨heq, _⟩)
      · exact le_of_lt hlt
      · exact le_of_eq heq.symm

/-- Witness for C5: a two-row corpus, `k = 5`; the search returns
`min(5, 2) = 2` results. -/
theorem search_count_ranks_and_order_witness :
    (([[(1 : ℚ)], [0]] : List (List ℚ)).length =
      ([['a'], ['b']] : List (List Char)).length) ∧
    (dbSearch [[(1 : ℚ)], [0]] [['a'], ['b']] [default, default]
      true id [1] 5).length = min 5 ([['a'], ['b']] : List (List Char)).length :=
  ⟨rfl, (search_count_ranks_and_order [[(1 : ℚ)], [0]] [['a'], ['b']]
    [default, default] id [1] 5 rfl).1⟩

/-- C6: the ranking the index model returns is strictly ordered by
descending score with ties broken by the lower corpus row index (insertion
order), and rebuilding the index twice from the same corpus snapshot gives
identical search output to rebuilding it once. -/
theorem search_tie_order_and_rebuild_idempotent :
    (∀ (embs : List (List ℚ)) (qv : List ℚ) (k : Nat),
      (faissTopK embs qv k).Pairwise
        (fun a b => b.2 < a.2 ∨ (a.2 = b.2 ∧ a.1 < b.1))) ∧
    (∀ (fe : List (List Char) → List (List ℚ)) (s : SState)
      (nf : List ℚ → List ℚ) (q : List ℚ) (k : Nat),
      searchS (rebuildS fe (rebuildS fe s)) nf q k =
        searchS (rebuildS fe s) nf q k) :=
  ⟨fun embs qv k => faissTopK_strict embs qv k,
    fun _ _ _ _ _ => rfl⟩

/-- C7: with an empty corpus or in the unfit state, `search` returns the
empty list (the guard at vector_db.py line 133) and, being a total
function of the state, never raises. -/
theorem search_empty_or_unfit_nil (embs : List (List ℚ))
    (docs : List (List Char)) (metas : List Meta) (fitted : Bool)
    (nf : List ℚ → List ℚ) (q : List ℚ) (k : Nat)
    (h : docs = [] ∨ fitted = false) :
    dbSearch embs docs metas fitted nf q k = [] := by
  unfold dbSearch
  rcases h with h | h <;> simp [h]

/-- Witness for C7 at the empty initial store. -/
theorem search_empty_or_unfit_nil_witness :
    ((([] : List (List Char)) = [] ∨ (true : Bool) = false)) ∧
    dbSearch [] [] [] true id [] 3 = [] :=
  ⟨Or.inl rfl, search_empty_or_unfit_nil [] [] [] true id [] 3 (Or.inl rfl)⟩

/-- C10: a query whose transformed vector is the zero vector (no shared
vocabulary with the corpus) is passed through unnormalized by the
`query_norm > 0` guard, and the search still returns `min(k, n)` results,
every one with score `0`. -/
theorem search_zero_vector_query (embs : List (List ℚ))
    (docs : List (List Char)) (metas : List Meta) (nf : List ℚ → List ℚ)
    (k d : Nat) (hlen : embs.length = docs.length) :
    (dbSearch embs docs metas true nf (List.replicate d 0) k).length =
      min k docs.length ∧
    (∀ r ∈ dbSearch embs docs metas true nf (List.replicate d 0) k,
      r.score = 0) := by
  by_cases h0 : docs.length = 0
  · have hnil : dbSearch embs docs metas true nf (List.replicate d 0) k = [] := by
      unfold dbSearch
      simp [h0]
    rw [hnil]
    refine ⟨by simp [h0], by simp⟩
  · rw [dbSearch_eq_of_ne embs docs metas nf _ k h0]
    have hguard : ¬ 0 < sumSq (List.replicate d (0 : ℚ)) := by
      rw [sumSq_replicate_zero]
      exact lt_irrefl 0
    rw [if_neg hguard]
    constructor
    · rw [mkResults_length, faissTopK_length, hlen]
      exact Nat.min_eq_left (Nat.min_le_right k docs.length)
    · intro r hr
      obtain ⟨p, hp, hs, _⟩ := mkResults_mem docs metas 0 _ r hr
      have hsc := mem_scoredRows_score embs _ (mem_faissTopK embs _ _ hp)
      rw [hs, hsc, dot_replicate_zero]

/-- Witness for C10: two corpus rows, a zero query vector of dimension 1;
two results come back and the first one scores zero. -/
theorem search_zero_vector_query_witness :
    (([[(1 : ℚ)], [0]] : List (List ℚ)).length =
      ([['a'], ['b']] : List (List Char)).length) ∧
    (dbSearch [[(1 : ℚ)], [0]] [['a'], ['b']] [default, default]
      true id (List.replicate 1 0) 5).length =
      min 5 ([['a'], ['b']] : List (List Char)).length :=
  ⟨rfl, (search_zero_vector_query [[(1 : ℚ)], [0]] [['a'], ['b']]
    [default, default] id 5 1 rfl).1⟩

theorem chunkMetas_one (base : Meta) : chunkMetas base 1 = [base] := rfl

theorem addDocR_one (f : List (List Char) → Bool) (acc : VDB) (d : List Char)
    (m : Meta) (h1 : (chunkText d 500).length = 1) :
    (addDocR f acc d (some m)).1.documents.length = acc.documents.length + 1 ∧
    (addDocR f acc d (some m)).1.metadata = acc.metadata ++ [m] := by
  constructor
  · rw [addDocR_documents_length, h1]
  · rw [addDocR_metadata]
    simp only [Option.getD_some, h1, chunkMetas_one]

theorem deleteFold_false (f : List (List Char) → Bool)
    (pairs : List (List Char × Meta)) (a : VDB) :
    pairs.foldl
      (fun acc dm => if acc.2 then addDocR f acc.1 dm.1 (some dm.2) else acc)
      (a, false) = (a, false) := by
  induction pairs with
  | nil => rfl
  | cons dm rest ih => simpa using ih

theorem deleteFold_spec (f : List (List Char) → Bool) :
    ∀ (pairs : List (List Char × Meta)) (a : VDB),
      (∀ dm ∈ pairs, (chunkText dm.1 500).length = 1) →
      (pairs.foldl
        (fun acc dm => if acc.2 then addDocR f acc.1 dm.1 (some dm.2) else acc)
        (a, true)).2 = true →
      (pairs.foldl
        (fun acc dm => if acc.2 then addDocR f acc.1 dm.1 (some dm.2) else acc)
        (a, true)).1.documents.length = a.documents.length + pairs.length ∧
      (pairs.foldl
        (fun acc dm => if acc.2 then addDocR f acc.1 dm.1 (some dm.2) else acc)
        (a, true)).1.metadata = a.metadata ++ pairs.map Prod.snd := by
  intro pairs
  induction pairs with
  | nil =>
    intro a _ _
    exact ⟨rfl, by simp⟩
  | cons dm rest ih =>
    intro a hsingle hok
    have hstep : (List.foldl
        (fun acc dm => if acc.2 then addDocR f acc.1 dm.1 (some dm.2) else acc)
        (a, true) (dm :: rest)) = List.foldl
        (fun acc dm => if acc.2 then addDocR f acc.1 dm.1 (some dm.2) else acc)
        (addDocR f a dm.1 (some dm.2)) rest := by
      simp
    rw [hstep] at hok ⊢
    have hone := addDocR_one f a dm.1 dm.2
      (hsingle dm (List.mem_cons_self dm rest))
    rcases hflag : (addDocR f a dm.1 (some dm.2)).2 with _ | _
    · exfalso
      have habsorb := deleteFold_false f rest (addDocR f a dm.1 (some dm.2)).1
      have hpair : addDocR f a dm.1 (some dm.2) =
          ((addDocR f a dm.1 (some dm.2)).1, false) := by
        rw [← hflag]
      rw [hpair, habsorb] at hok
      simp at hok
    · have hpair : addDocR f a dm.1 (some dm.2) =
          ((addDocR f a dm.1 (some dm.2)).1, true) := by
        rw [← hflag]
      rw [hpair] at hok ⊢
      obtain ⟨hd, hm⟩ := ih ((addDocR f a dm.1 (some dm.2)).1)
        (fun x hx => hsingle x (List.mem_cons_of_mem dm hx)) hok
      refine ⟨?_, ?_⟩
      · rw [hd, hone.1]
        simp [Nat.add_assoc, Nat.add_comm 1 rest.length]
      · rw [hm, hone.2]
        simp

theorem zip_filter_snd_length {α β : Type _} (q : β → Bool) :
    ∀ (as : List α) (bs : List β), as.length = bs.length →
      ((as.zip bs).filter (fun ab => q ab.2)).length = (bs.filter q).length
  | [], [], _ => rfl
  | [], _ :: _, h => by simp at h
  | _ :: _, [], h => by simp at h
  | a :: as, b :: bs, h => by
    have h2 : as.length = bs.length := by simpa using h
    simp only [List.zip_cons_cons, List.filter_cons]
    by_cases hq : q b
    · simp [hq, zip_filter_snd_length q as bs h2]
    · simp [hq, zip_filter_snd_length q as bs h2]

theorem filter_not_length {β : Type _} (q : β → Bool) :
    ∀ l : List β,
      (l.filter (fun b => !(q b))).length = l.length - (l.filter q).length := by
  intro l
  induction l with
  | nil => rfl
  | cons b bs ih =>
    have hle : (bs.filter q).length ≤ bs.length := List.length_filter_le q bs
    by_cases hq : q b
    · simp [List.filter_cons, hq, ih]
    · simp only [List.filter_cons, hq, Bool.not_false, if_pos, if_neg]
      simp [List.length_cons, ih]
      omega

theorem getD_prop {P : Meta → Prop} {metas : List Meta}
    (hP : ∀ m ∈ metas, P m) (hd : P default) (i : Nat) :
    P (metas.getD i default) := by
  by_cases h : i < metas.length
  · rw [List.getD_eq_getElem metas default h]
    exact hP _ (List.getElem_mem h)
  · rw [List.getD_eq_default metas default (Nat.le_of_not_lt h)]
    exact hd

theorem dbSearch_metadata_prop {P : Meta → Prop} {metas : List Meta}
    (hP : ∀ m ∈ metas, P m) (hd : P default)
    (embs : List (List ℚ)) (docs : List (List Char)) (fitted : Bool)
    (nf : List ℚ → List ℚ) (q : List ℚ) (k : Nat) (r : SearchResult)
    (hr : r ∈ dbSearch embs docs metas fitted nf q k) : P r.metadata := by
  unfold dbSearch at hr
  by_cases hg : docs.length = 0 ∨ fitted = false
  · rw [if_pos hg] at hr
    simp at hr
  · rw [if_neg hg] at hr
    obtain ⟨p, _, _, hm⟩ := mkResults_mem docs metas 0 _ r hr
    rw [hm]
    exact getD_prop hP hd p.1

/-- C8: deleting by `filename == F` (the app.py handler: filter the rows,
`clear_all`, re-add the retained rows) leaves no stored row - hence no
search result - whose metadata filename is `F`, and shrinks the document
count by exactly the number of chunks that had filename `F`.  The
hypotheses say the store rows are aligned and were produced by the chunker
(every stored document re-chunks to a single chunk), and that the delete
completed without a fit failure. -/
theorem delete_by_filename_removes_rows (f : List (List Char) → Bool)
    (s : VDB) (F : List Char)
    (hlen : s.documents.length = s.metadata.length)
    (hinv : ∀ d ∈ s.documents, (chunkText d 500).length = 1)
    (hok : (deleteByR f s F).2 = true) :
    (∀ m ∈ (deleteByR f s F).1.metadata, ¬ m.filename = some F) ∧
    (deleteByR f s F).1.documents.length =
      s.documents.length -
        (s.metadata.filter (fun m => m.filename = some F)).length ∧
    (∀ (embs : List (List ℚ)) (nf : List ℚ → List ℚ) (q : List ℚ) (k : Nat)
      (r : SearchResult),
      r ∈ dbSearch embs (deleteByR f s F).1.documents
        (deleteByR f s F).1.metadata (deleteByR f s F).1.fitted nf q k →
      ¬ r.metadata.filename = some F) := by
  have hsingle : ∀ dm ∈ (s.documents.zip s.metadata).filter
      (fun dm => ¬ dm.2.filename = some F), (chunkText dm.1 500).length = 1 := by
    intro dm hdm
    exact hinv dm.1 (List.of_mem_zip (List.mem_of_mem_filter hdm)).1
  obtain ⟨hd, hm⟩ := deleteFold_spec f
    ((s.documents.zip s.metadata).filter (fun dm => ¬ dm.2.filename = some F))
    initVDB hsingle hok
  have hmeta1 : ∀ m ∈ (deleteByR f s F).1.metadata, ¬ m.filename = some F := by
    intro m hmm
    rw [show (deleteByR f s F) = ((s.documents.zip s.metadata).filter
        (fun dm => ¬ dm.2.filename = some F)).foldl
        (fun acc dm => if acc.2 then addDocR f acc.1 dm.1 (some dm.2) else acc)
        (initVDB, true) from rfl, hm] at hmm
    simp only [initVDB, List.nil_append, List.mem_map] at hmm
    obtain ⟨dm, hdm, rfl⟩ := hmm
    exact of_decide_eq_true (List.mem_filter.1 hdm).2
  refine ⟨hmeta1, ?_, ?_⟩
  · rw [show (deleteByR f s F) = ((s.documents.zip s.metadata).filter
        (fun dm => ¬ dm.2.filename = some F)).foldl
        (fun acc dm => if acc.2 then addDocR f acc.1 dm.1 (some dm.2) else acc)
        (initVDB, true) from rfl, hd]
    have hcount : (((s.documents.zip s.metadata).filter
        (fun dm => ¬ dm.2.filename = some F))).length =
        (s.metadata.filter (fun m => decide (¬ m.filename = some F))).length :=
      zip_filter_snd_length (fun m => decide (¬ m.filename = some F))
        s.documents s.metadata hlen
    rw [show (initVDB.documents.length = 0) from rfl] at *
    have hcompl : (s.metadata.filter
        (fun m => decide (¬ m.filename = some F))).length =
        s.metadata.length -
          (s.metadata.filter (fun m => m.filename = some F)).length := by
      have := filter_not_length (fun m => decide (m.filename = some F)) s.metadata
      simpa [decide_not] using this
    rw [Nat.zero_add, hcount, hcompl, hlen]
  · intro embs nf q k r hr
    exact dbSearch_metadata_prop hmeta1 (by intro hc; exact Option.noConfusion hc)
      embs _ _ nf q k r hr

/-- Witness for C8: a two-row store with filenames `a` and `b`; deleting
filename `a` under an always-successful vectorizer leaves one document,
`2 - 1`. -/
theorem delete_by_filename_removes_rows_witness :
    ((VDB.mk [['h', 'i'], ['y', 'o']]
        [⟨some ['a'], none, none, none⟩, ⟨some ['b'], none, none, none⟩]
        true (some 2)).documents.length =
      (VDB.mk [['h', 'i'], ['y', 'o']]
        [⟨some ['a'], none, none, none⟩, ⟨some ['b'], none, none, none⟩]
        true (some 2)).metadata.length) ∧
    ((deleteByR (fun _ => true) (VDB.mk [['h', 'i'], ['y', 'o']]
        [⟨some ['a'], none, none, none⟩, ⟨some ['b'], none, none, none⟩]
        true (some 2)) ['a']).2 = true) ∧
    (deleteByR (fun _ => true) (VDB.mk [['h', 'i'], ['y', 'o']]
        [⟨some ['a'], none, none, none⟩, ⟨some ['b'], none, none, none⟩]
        true (some 2)) ['a']).1.documents.length =
      (VDB.mk [['h', 'i'], ['y', 'o']]
        [⟨some ['a'], none, none, none⟩, ⟨some ['b'], none, none, none⟩]
        true (some 2)).documents.length -
        ((VDB.mk [['h', 'i'], ['y', 'o']]
          [⟨some ['a'], none, none, none⟩, ⟨some ['b'], none, none, none⟩]
          true (some 2)).metadata.filter
            (fun m => m.filename = some ['a'])).length :=
  ⟨by decide, by decide,
    (delete_by_filename_removes_rows (fun _ => true)
      (VDB.mk [['h', 'i'], ['y', 'o']]
        [⟨some ['a'], none, none, none⟩, ⟨some ['b'], none, none, none⟩]
        true (some 2)) ['a'] (by decide) (by decide) (by decide)).2.1⟩
